import Mathlib

/-!
Verification of the stock-screener pipeline: a shallow embedding of
`src/mastra/tools/fetchStockData.ts` (EMA computation, qualification rule,
per-symbol batch loop) and `src/mastra/tools/generateStockCSV.ts` (CSV
serialization), with proofs of the specified properties.

Machine numbers (JS `number`) are modelled by exact rationals `ℚ`; JS sparse
arrays with holes are modelled by `List (Option ℚ)` where a hole is `none`.
-/

namespace StockScreener

/-- The `StockData` interface of `fetchStockData.ts`: one latest trading bar
for one symbol.  The JS field `open` is a Lean keyword, rendered `openPrice`;
`volume` is an integral count. -/
structure StockData where
  symbol : String
  name : String
  exchange : String
  openPrice : ℚ
  high : ℚ
  low : ℚ
  close : ℚ
  volume : ℤ
  date : String
deriving DecidableEq, Repr

/-- The `StockWithEMA` interface: a `StockData` extended with the computed
`ema50` and the `qualifies` flag. -/
structure StockWithEMA extends StockData where
  ema50 : ℚ
  qualifies : Bool
deriving DecidableEq, Repr

/-- `multiplier = 2 / (period + 1)` from `calculateEMA`. -/
def emaMultiplier (period : ℕ) : ℚ := 2 / ((period : ℚ) + 1)

/-- The simple-moving-average seed written at index `period - 1` by
`calculateEMA`: the sum of the first `min(period, prices.length)` prices
divided by `min(period, prices.length)`. -/
def emaSeed (prices : List ℚ) (period : ℕ) : ℚ :=
  (prices.take period).sum / ((min period prices.length : ℕ) : ℚ)

/-- One step of the EMA recurrence:
`ema[i] = (prices[i] - ema[i-1]) * multiplier + ema[i-1]`. -/
def emaStep (multiplier prev price : ℚ) : ℚ := (price - prev) * multiplier + prev

/-- The EMA values produced by the loop `for (i = period; i < prices.length; i++)`
of `calculateEMA`, chaining `emaStep` from the previous value through the
remaining prices. -/
def emaTail (multiplier : ℚ) : ℚ → List ℚ → List ℚ
  | _, [] => []
  | prev, p :: ps =>
    emaStep multiplier prev p :: emaTail multiplier (emaStep multiplier prev p) ps

/-- `calculateEMA` of `fetchStockData.ts`.  The JS function fills a sparse
array: indices `0 .. period-2` stay holes (`none`), index `period-1` gets the
SMA seed, and indices `period .. prices.length-1` get the recurrence values.
The resulting array length is `max period prices.length` (for `period ≥ 1`),
since assigning index `period-1` of an empty array makes its length `period`. -/
def calculateEMA (prices : List ℚ) (period : ℕ) : List (Option ℚ) :=
  List.replicate (period - 1) none ++
    some (emaSeed prices period) ::
      (emaTail (emaMultiplier period) (emaSeed prices period) (prices.drop period)).map some

/-- The entry of the EMA series at index `i` (`none` when absent, as when a JS
sparse array is read at a hole or out of range). -/
def emaEntry (prices : List ℚ) (period i : ℕ) : Option ℚ :=
  (calculateEMA prices period).getD i none

/-- The qualification rule of `fetchStockData.ts` line 177:
`low < currentEMA50 && close > currentEMA50`. -/
def qualifiesRule (low close ema50 : ℚ) : Bool :=
  decide (low < ema50) && decide (close > ema50)

/-- `emaValues[emaValues.length - 1]`: the last entry of the EMA series
(always present for `period ≥ 1`; the `.getD 0` default is never reached). -/
def lastEMA (emaValues : List (Option ℚ)) : ℚ := (emaValues.getLastD none).getD 0

/-- The per-symbol loop of `fetchStockDataTool.execute` (lines 155-189),
with the two Yahoo fetchers abstracted as explicit collaborators
`fetchBar : String → Option StockData` (latest bar, `none` on failure) and
`fetchHist : String → List ℚ` (historical closes, `[]` on failure).
A symbol whose bar fetch fails or whose history is shorter than 50 entries is
skipped (`continue`); otherwise its record is appended. -/
def processSymbols (fetchBar : String → Option StockData) (fetchHist : String → List ℚ) :
    List String → List StockWithEMA
  | [] => []
  | s :: rest =>
    match fetchBar s with
    | none => processSymbols fetchBar fetchHist rest
    | some stockData =>
      let historicalPrices := fetchHist s
      if historicalPrices.length < 50 then
        processSymbols fetchBar fetchHist rest
      else
        let currentEMA50 := lastEMA (calculateEMA historicalPrices 50)
        { toStockData := stockData
          ema50 := currentEMA50
          qualifies := qualifiesRule stockData.low stockData.close currentEMA50 } ::
          processSymbols fetchBar fetchHist rest

/-- The aggregate returned by `fetchStockDataTool.execute` (lines 198-202). -/
structure AnalysisReport where
  totalStocks : ℕ
  qualifyingStocks : ℕ
  stocks : List StockWithEMA
deriving DecidableEq, Repr

/-- `fetchStockDataTool.execute`: run the per-symbol loop, then compute the
summary counts from the finalized list (lines 191-203). -/
def executeFetchStockData (fetchBar : String → Option StockData)
    (fetchHist : String → List ℚ) (symbols : List String) : AnalysisReport :=
  let stocksWithEMA := processSymbols fetchBar fetchHist symbols
  let qualifying := stocksWithEMA.filter (fun st => st.qualifies)
  { totalStocks := stocksWithEMA.length
    qualifyingStocks := qualifying.length
    stocks := stocksWithEMA }

/-- A concrete latest-bar fetcher whose bar sits exactly on the EMA
(`low = close = 10`), so the fetched symbol is analyzed but does not qualify. -/
def flatBarFetch : String → Option StockData := fun s =>
  some { symbol := s, name := "n", exchange := "NSE", openPrice := 10, high := 10,
         low := 10, close := 10, volume := 1, date := "2025-01-01" }

/-- A concrete latest-bar fetcher whose bar straddles the EMA of a constant-10
history (`low = 9 < 10 < 11 = close`), so the fetched symbol qualifies. -/
def straddleBarFetch : String → Option StockData := fun s =>
  some { symbol := s, name := "n", exchange := "NSE", openPrice := 10, high := 12,
         low := 9, close := 11, volume := 1, date := "2025-01-01" }

/-- A concrete history fetcher: 50 bars, all at price 10 (EMA is 10). -/
def constHistFetch : String → List ℚ := fun _ => List.replicate 50 (10 : ℚ)

/-- A concrete history fetcher that returns only 30 bars for symbol "B"
(insufficient) and 50 bars otherwise. -/
def mixedHistFetch : String → List ℚ := fun s =>
  if s = "B" then List.replicate 30 (10 : ℚ) else List.replicate 50 (10 : ℚ)

/-- The header list of `generateCSV` in `generateStockCSV.ts` (lines 19-33). -/
def csvHeaders : List String :=
  ["Symbol", "Name", "Exchange", "Date", "Open", "High", "Low", "Close", "Volume",
   "50_EMA", "Low_vs_EMA", "Close_vs_EMA", "Qualifies"]

/-- JS `Array.prototype.join(sep)`. -/
def joinSep (sep : String) : List String → String
  | [] => ""
  | [a] => a
  | a :: b :: rest => a ++ sep ++ joinSep sep (b :: rest)

/-- Decimal digits of a natural number, most significant first ("0" for 0),
as produced by JS number-to-string conversion. -/
def natDigits (n : ℕ) : List Char :=
  if _h : n < 10 then [Nat.digitChar n]
  else natDigits (n / 10) ++ [Nat.digitChar (n % 10)]
decreasing_by exact Nat.div_lt_self (by omega) (by omega)

/-- Decimal rendering of a natural number. -/
def natToString (n : ℕ) : String := String.mk (natDigits n)

/-- JS `Number.prototype.toString()` restricted to integers. -/
def intToString (i : ℤ) : String :=
  if i < 0 then "-" ++ natToString i.natAbs else natToString i.natAbs

/-- JS `Number.prototype.toFixed(2)` modelled over exact rationals, following
the ECMA definition: choose the integer `n` with `n / 100` closest to the
value, ties to the larger `n` (that is `⌊100q + 1/2⌋`), and print it with
exactly two digits after the decimal point. -/
def toFixed2 (q : ℚ) : String :=
  let n : ℤ := Int.floor (q * 100 + 1 / 2)
  (if n < 0 then "-" else "") ++ natToString (n.natAbs / 100) ++ "." ++
    (if n.natAbs % 100 < 10 then "0" else "") ++ natToString (n.natAbs % 100)

/-- One data row of `generateCSV` (lines 41-55): the thirteen fields of a
stock, joined by commas; only the Name field is wrapped in double quotes
("Quote names to handle commas"). -/
def csvRow (stock : StockWithEMA) : String :=
  joinSep ","
    [stock.symbol,
     "\"" ++ stock.name ++ "\"",
     stock.exchange,
     stock.date,
     toFixed2 stock.openPrice,
     toFixed2 stock.high,
     toFixed2 stock.low,
     toFixed2 stock.close,
     intToString stock.volume,
     toFixed2 stock.ema50,
     if stock.low < stock.ema50 then "Below" else "Above",
     if stock.close > stock.ema50 then "Above" else "Below",
     if stock.qualifies then "YES" else "NO"]

/-- The `csvRows` array of `generateCSV`: the joined header line followed by
one row per qualifying stock (line 38 filters to qualifying only). -/
def csvRows (stocks : List StockWithEMA) : List String :=
  joinSep "," csvHeaders :: (stocks.filter (fun st => st.qualifies)).map csvRow

/-- `generateCSV` (line 59): the rows joined by newlines. -/
def generateCSV (stocks : List StockWithEMA) : String :=
  joinSep "\n" (csvRows stocks)

/-- Modelled from the spec: the repository ships no CSV parser, but §4.4/§8
require the serialized table to be re-parseable into the same structured
values.  `splitOnChar c` splits a character list at every occurrence of `c`
(the inverse of joining with `c`). -/
def splitOnChar (c : Char) : List Char → List (List Char)
  | [] => [[]]
  | x :: xs =>
    match splitOnChar c xs with
    | [] => [[x]]
    | y :: ys => if x = c then [] :: y :: ys else (x :: y) :: ys

/-- Modelled from the spec: split one CSV line into its fields at the commas
that are not inside double quotes; a double quote toggles quoted mode and is
not part of the field text.  `acc` holds the current field, reversed. -/
def splitFields : List Char → Bool → List Char → List (List Char)
  | [], _, acc => [acc.reverse]
  | ch :: cs, inQ, acc =>
    if ch = '"' then splitFields cs (!inQ) acc
    else if ch = ',' ∧ inQ = false then acc.reverse :: splitFields cs false []
    else splitFields cs inQ (ch :: acc)

/-- Modelled from the spec: parse the tabular text back into rows of field
strings — split into lines, drop the header line, split each line into
fields. -/
def parseCSV (s : String) : List (List String) :=
  ((splitOnChar '\n' s.toList).drop 1).map
    (fun line => (splitFields line false []).map String.mk)

/-- The structured values a data row of `generateCSV` carries: parsing the
row of a stock yields exactly these thirteen field strings. -/
def expectedFields (stock : StockWithEMA) : List String :=
  [stock.symbol,
   stock.name,
   stock.exchange,
   stock.date,
   toFixed2 stock.openPrice,
   toFixed2 stock.high,
   toFixed2 stock.low,
   toFixed2 stock.close,
   intToString stock.volume,
   toFixed2 stock.ema50,
   if stock.low < stock.ema50 then "Below" else "Above",
   if stock.close > stock.ema50 then "Above" else "Below",
   if stock.qualifies then "YES" else "NO"]

/-- A character that cannot disturb the CSV structure: not a field separator,
not a quote, not a line break. -/
def csvSafe (c : Char) : Prop := c ≠ ',' ∧ c ≠ '"' ∧ c ≠ '\n'

/-- The text-field condition under which the round-trip holds: symbol,
exchange and date contain no separator, quote or newline, and the (quoted)
name contains no quote or newline. -/
def stockTextsClean (st : StockWithEMA) : Prop :=
  (∀ c ∈ st.symbol.toList, csvSafe c) ∧
  (∀ c ∈ st.exchange.toList, csvSafe c) ∧
  (∀ c ∈ st.date.toList, csvSafe c) ∧
  (∀ c ∈ st.name.toList, c ≠ '"' ∧ c ≠ '\n')

/-- Character-level image of `joinSep`. -/
def charJoin (sep : List Char) : List (List Char) → List Char
  | [] => []
  | [a] => a
  | a :: b :: rest => a ++ sep ++ charJoin sep (b :: rest)

/-- How `csvRow` encodes one field: unquoted text, or text wrapped in double
quotes (only the Name column). -/
def encodeField : Bool × List Char → List Char
  | (false, f) => f
  | (true, f) => '"' :: (f ++ ['"'])

/-- The content condition a field must meet for faithful parsing: an unquoted
field holds no comma and no quote; a quoted field holds no quote. -/
def fieldOk : Bool × List Char → Prop
  | (false, f) => ∀ c ∈ f, c ≠ ',' ∧ c ≠ '"'
  | (true, f) => ∀ c ∈ f, c ≠ '"'

instance (c : Char) : Decidable (csvSafe c) := by
  unfold csvSafe
  infer_instance

instance (st : StockWithEMA) : Decidable (stockTextsClean st) := by
  unfold stockTextsClean
  infer_instance

/-- The thirteen fields of a data row, each tagged with whether `csvRow`
quotes it (only the Name column is quoted). -/
def rowFieldPairs (st : StockWithEMA) : List (Bool × List Char) :=
  [(false, st.symbol.toList),
   (true, st.name.toList),
   (false, st.exchange.toList),
   (false, st.date.toList),
   (false, (toFixed2 st.openPrice).toList),
   (false, (toFixed2 st.high).toList),
   (false, (toFixed2 st.low).toList),
   (false, (toFixed2 st.close).toList),
   (false, (intToString st.volume).toList),
   (false, (toFixed2 st.ema50).toList),
   (false, (if st.low < st.ema50 then "Below" else "Above").toList),
   (false, (if st.close > st.ema50 then "Above" else "Below").toList),
   (false, (if st.qualifies then "YES" else "NO").toList)]

/-- A concrete qualifying record with round-trip-safe text fields (the name
contains a comma, which the quoting preserves). -/
def cleanStock : StockWithEMA :=
  { symbol := "AAA", name := "Acme, Inc", exchange := "NSE", openPrice := 10, high := 12,
    low := 9, close := 11, volume := 5, date := "2025-01-01", ema50 := 10, qualifies := true }

/-- A concrete qualifying record whose symbol contains the field separator:
`generateCSV` does not quote the Symbol column. -/
def commaStock : StockWithEMA :=
  { symbol := "A,B", name := "n", exchange := "NSE", openPrice := 10, high := 12,
    low := 9, close := 11, volume := 1, date := "2025-01-01", ema50 := 10, qualifies := true }

lemma emaTail_length (m : ℚ) (prev : ℚ) (l : List ℚ) :
    (emaTail m prev l).length = l.length := by
  induction l generalizing prev with
  | nil => rfl
  | cons p ps ih => simp [emaTail, ih]

lemma emaTail_getElem?_succ (m : ℚ) (l : List ℚ) :
    ∀ (prev : ℚ) (j : ℕ), j + 1 < l.length →
      ∃ prevV pV, (emaTail m prev l)[j]? = some prevV ∧ l[j + 1]? = some pV ∧
        (emaTail m prev l)[j + 1]? = some (emaStep m prevV pV) := by
  induction l with
  | nil => intro prev j h; simp at h
  | cons p ps ih =>
    intro prev j h
    match j with
    | 0 =>
      match ps, h with
      | q :: qs, _ =>
        exact ⟨emaStep m prev p, q, by simp [emaTail], by simp, by simp [emaTail]⟩
    | k + 1 =>
      obtain ⟨prevV, pV, h1, h2, h3⟩ := ih (emaStep m prev p) k (by simpa using h)
      exact ⟨prevV, pV, by simpa [emaTail] using h1, by simpa using h2,
        by simpa [emaTail] using h3⟩

lemma emaEntry_lt {prices : List ℚ} {period i : ℕ} (h : i < period - 1) :
    emaEntry prices period i = none := by
  unfold emaEntry calculateEMA
  rw [List.getD_eq_getElem?_getD, List.getElem?_append]
  simp [List.getElem?_replicate, h]

lemma emaEntry_seedIdx {prices : List ℚ} {period : ℕ} :
    emaEntry prices period (period - 1) = some (emaSeed prices period) := by
  unfold emaEntry calculateEMA
  rw [List.getD_eq_getElem?_getD, List.getElem?_append_right (by simp)]
  simp

lemma emaEntry_ge {prices : List ℚ} {period i : ℕ} (h1 : 1 ≤ period) (h2 : period ≤ i) :
    emaEntry prices period i =
      (emaTail (emaMultiplier period) (emaSeed prices period) (prices.drop period))[i - period]? := by
  unfold emaEntry calculateEMA
  rw [List.getD_eq_getElem?_getD,
    List.getElem?_append_right (by simp; omega)]
  have hidx : i - (List.replicate (period - 1) (none : Option ℚ)).length = (i - period) + 1 := by
    simp; omega
  rw [hidx, List.getElem?_cons_succ, List.getElem?_map]
  cases (emaTail (emaMultiplier period) (emaSeed prices period) (prices.drop period))[i - period]? <;> rfl

lemma ema_recurrence (prices : List ℚ) (period i : ℕ)
    (h1 : 1 ≤ period) (h2 : period ≤ i) (hi : i < prices.length) :
    ∃ prev cur, emaEntry prices period (i - 1) = some prev ∧
      emaEntry prices period i = some cur ∧
      cur = emaStep (emaMultiplier period) prev (prices.getD i 0) := by
  have hdl : (prices.drop period).length = prices.length - period := by simp
  by_cases hip : i = period
  · subst hip
    have hne : ∃ p ps, prices.drop i = p :: ps := by
      cases hd : prices.drop i with
      | nil => exfalso; rw [hd] at hdl; simp at hdl; omega
      | cons p ps => exact ⟨p, ps, rfl⟩
    obtain ⟨p, ps, hd⟩ := hne
    have hp : prices.getD i 0 = p := by
      have := List.getElem?_drop prices i 0
      rw [hd] at this
      simp at this
      rw [List.getD_eq_getElem?_getD, ← this]
      rfl
    refine ⟨emaSeed prices i, emaStep (emaMultiplier i) (emaSeed prices i) p,
      emaEntry_seedIdx, ?_, by rw [hp]⟩
    rw [emaEntry_ge h1 (le_refl i), hd]
    simp [emaTail]
  · have hgt : period < i := lt_of_le_of_ne h2 (fun h => hip h.symm)
    have hk : i - period = (i - period - 1) + 1 := by omega
    obtain ⟨prevV, pV, hprev, hpv, hcur⟩ :=
      emaTail_getElem?_succ (emaMultiplier period) (prices.drop period)
        (emaSeed prices period) (i - period - 1) (by omega)
    have hpval : prices.getD i 0 = pV := by
      have hget := List.getElem?_drop prices period (i - period - 1 + 1)
      rw [hpv] at hget
      have : period + (i - period - 1 + 1) = i := by omega
      rw [this] at hget
      rw [List.getD_eq_getElem?_getD, ← hget]
      rfl
    refine ⟨prevV, emaStep (emaMultiplier period) prevV pV, ?_, ?_, by rw [hpval]⟩
    · rw [emaEntry_ge h1 (by omega)]
      have : i - 1 - period = i - period - 1 := by omega
      rw [this, hprev]
    · rw [emaEntry_ge h1 h2, hk, hcur]

lemma constHist_ema : lastEMA (calculateEMA (List.replicate 50 (10 : ℚ)) 50) = 10 := by
  unfold lastEMA calculateEMA
  rw [List.drop_eq_nil_of_le (by simp)]
  simp [emaTail, emaSeed, List.sum_replicate]
  norm_num

lemma flatBar_report_eq : executeFetchStockData flatBarFetch constHistFetch ["A"] =
    { totalStocks := 1, qualifyingStocks := 0,
      stocks := [{ symbol := "A", name := "n", exchange := "NSE", openPrice := 10, high := 10,
                   low := 10, close := 10, volume := 1, date := "2025-01-01",
                   ema50 := 10, qualifies := false }] } := by
  have hq : qualifiesRule 10 10 (lastEMA (calculateEMA (List.replicate 50 (10 : ℚ)) 50)) =
      false := by
    rw [constHist_ema]
    simp [qualifiesRule]
  unfold executeFetchStockData
  have step1 : processSymbols flatBarFetch constHistFetch ["A"] =
      [{ symbol := "A", name := "n", exchange := "NSE", openPrice := 10, high := 10,
         low := 10, close := 10, volume := 1, date := "2025-01-01",
         ema50 := lastEMA (calculateEMA (List.replicate 50 (10 : ℚ)) 50),
         qualifies := qualifiesRule 10 10
           (lastEMA (calculateEMA (List.replicate 50 (10 : ℚ)) 50)) }] := rfl
  rw [step1, hq, constHist_ema]
  simp [List.filter]

lemma processSymbols_skip (fetchBar : String → Option StockData)
    (fetchHist : String → List ℚ) (s : String)
    (h : fetchBar s = none ∨ (fetchHist s).length < 50) (pre post : List String) :
    processSymbols fetchBar fetchHist (pre ++ s :: post) =
      processSymbols fetchBar fetchHist (pre ++ post) := by
  induction pre with
  | nil =>
    simp only [List.nil_append]
    rcases h with h | h
    · conv_lhs => rw [processSymbols]
      rw [h]
    · conv_lhs => rw [processSymbols]
      cases hb : fetchBar s with
      | none => rfl
      | some sd => simp only [if_pos h]
  | cons a pre ih =>
    simp only [List.cons_append]
    conv_lhs => rw [processSymbols]
    conv_rhs => rw [processSymbols]
    cases hb : fetchBar a with
    | none => exact ih
    | some sd =>
      by_cases hh : (fetchHist a).length < 50
      · simp only [if_pos hh]
        exact ih
      · simp only [if_neg hh, ih]

lemma processSymbols_symbols_sublist (fetchBar : String → Option StockData)
    (fetchHist : String → List ℚ)
    (hsym : ∀ s sd, fetchBar s = some sd → sd.symbol = s) :
    ∀ symbols, List.Sublist
      ((processSymbols fetchBar fetchHist symbols).map (fun st => st.symbol)) symbols := by
  intro symbols
  induction symbols with
  | nil => simp [processSymbols]
  | cons a rest ih =>
    rw [processSymbols]
    cases hb : fetchBar a with
    | none => exact ih.cons a
    | some sd =>
      by_cases hh : (fetchHist a).length < 50
      · simp only [if_pos hh]
        exact ih.cons a
      · simp only [if_neg hh, List.map_cons]
        have hs : sd.symbol = a := hsym a sd hb
        have goal2 : List.Sublist (sd.symbol ::
            (processSymbols fetchBar fetchHist rest).map (fun st => st.symbol)) (a :: rest) := by
          rw [hs]
          exact ih.cons₂ a
        exact goal2

lemma toList_append (s t : String) : (s ++ t).toList = s.toList ++ t.toList := by
  simp [String.toList]

lemma joinSep_toList (sep : String) : ∀ l : List String,
    (joinSep sep l).toList = charJoin sep.toList (l.map String.toList)
  | [] => rfl
  | [a] => rfl
  | a :: b :: rest => by
    show (a ++ sep ++ joinSep sep (b :: rest)).toList =
      a.toList ++ sep.toList ++ charJoin sep.toList ((b :: rest).map String.toList)
    rw [toList_append, toList_append, joinSep_toList sep (b :: rest)]

lemma splitOnChar_ne_nil (c : Char) (l : List Char) : splitOnChar c l ≠ [] := by
  cases l with
  | nil => simp [splitOnChar]
  | cons x xs =>
    rw [splitOnChar]
    rcases splitOnChar c xs with _ | ⟨y, ys⟩
    · simp
    · by_cases hx : x = c <;> simp [hx]

lemma splitOnChar_sepFree (c : Char) : ∀ (a : List Char), (∀ x ∈ a, x ≠ c) →
    splitOnChar c a = [a]
  | [], _ => rfl
  | x :: xs, h => by
    have ih := splitOnChar_sepFree c xs (fun y hy => h y (List.mem_cons_of_mem _ hy))
    rw [splitOnChar, ih]
    simp [h x (List.mem_cons_self _ _)]

lemma splitOnChar_append (c : Char) : ∀ (a rest : List Char), (∀ x ∈ a, x ≠ c) →
    splitOnChar c (a ++ c :: rest) = a :: splitOnChar c rest
  | [], rest, _ => by
    show splitOnChar c (c :: rest) = [] :: splitOnChar c rest
    rw [splitOnChar]
    cases h : splitOnChar c rest with
    | nil => exact absurd h (splitOnChar_ne_nil c rest)
    | cons y ys => simp
  | x :: a, rest, h => by
    have ih := splitOnChar_append c a rest (fun y hy => h y (List.mem_cons_of_mem _ hy))
    show splitOnChar c (x :: (a ++ c :: rest)) = (x :: a) :: splitOnChar c rest
    rw [splitOnChar, ih]
    simp [h x (List.mem_cons_self _ _)]

lemma splitOnChar_charJoin (c : Char) : ∀ (ls : List (List Char)), ls ≠ [] →
    (∀ l ∈ ls, ∀ x ∈ l, x ≠ c) → splitOnChar c (charJoin [c] ls) = ls
  | [], hne, _ => absurd rfl hne
  | [a], _, h => by
    show splitOnChar c a = [a]
    exact splitOnChar_sepFree c a (h a (List.mem_singleton_self a))
  | a :: b :: rest, _, h => by
    show splitOnChar c (a ++ [c] ++ charJoin [c] (b :: rest)) = a :: b :: rest
    rw [List.append_assoc, List.singleton_append]
    rw [splitOnChar_append c a _ (h a (List.mem_cons_self _ _))]
    rw [splitOnChar_charJoin c (b :: rest) (by simp)
      (fun l hl => h l (List.mem_cons_of_mem _ hl))]

lemma splitFields_clean_last : ∀ (pre acc : List Char),
    (∀ c ∈ pre, c ≠ ',' ∧ c ≠ '"') →
    splitFields pre false acc = [acc.reverse ++ pre]
  | [], acc, _ => by simp [splitFields]
  | ch :: cs, acc, h => by
    obtain ⟨h1, h2⟩ := h ch (List.mem_cons_self _ _)
    rw [splitFields, if_neg h2, if_neg (by simp [h1])]
    rw [splitFields_clean_last cs (ch :: acc) (fun c hc => h c (List.mem_cons_of_mem _ hc))]
    simp

lemma splitFields_clean_cons : ∀ (pre rest acc : List Char),
    (∀ c ∈ pre, c ≠ ',' ∧ c ≠ '"') →
    splitFields (pre ++ ',' :: rest) false acc =
      (acc.reverse ++ pre) :: splitFields rest false []
  | [], rest, acc, _ => by
    show splitFields (',' :: rest) false acc = (acc.reverse ++ []) :: splitFields rest false []
    rw [splitFields, if_neg (by decide), if_pos ⟨rfl, rfl⟩]
    simp
  | ch :: pre, rest, acc, h => by
    obtain ⟨h1, h2⟩ := h ch (List.mem_cons_self _ _)
    show splitFields (ch :: (pre ++ ',' :: rest)) false acc = _
    rw [splitFields, if_neg h2, if_neg (by simp [h1])]
    rw [splitFields_clean_cons pre rest (ch :: acc)
      (fun c hc => h c (List.mem_cons_of_mem _ hc))]
    simp

lemma splitFields_quoted : ∀ (nm rest acc : List Char), (∀ c ∈ nm, c ≠ '"') →
    splitFields (nm ++ '"' :: rest) true acc = splitFields rest false (nm.reverse ++ acc)
  | [], rest, acc, _ => by
    show splitFields ('"' :: rest) true acc = splitFields rest false acc
    rw [splitFields, if_pos rfl]
    rfl
  | ch :: nm, rest, acc, h => by
    have h1 : ch ≠ '"' := h ch (List.mem_cons_self _ _)
    show splitFields (ch :: (nm ++ '"' :: rest)) true acc = _
    rw [splitFields, if_neg h1, if_neg (by simp)]
    rw [splitFields_quoted nm rest (ch :: acc) (fun c hc => h c (List.mem_cons_of_mem _ hc))]
    simp

lemma splitFields_encoded : ∀ (fs : List (Bool × List Char)), fs ≠ [] →
    (∀ p ∈ fs, fieldOk p) →
    splitFields (charJoin [','] (fs.map encodeField)) false [] = fs.map Prod.snd
  | [], hne, _ => absurd rfl hne
  | [(false, f)], _, h => by
    show splitFields f false [] = [f]
    simpa using splitFields_clean_last f [] (h _ (List.mem_singleton_self _))
  | [(true, f)], _, h => by
    show splitFields ('"' :: (f ++ ['"'])) false [] = [f]
    rw [splitFields, if_pos rfl]
    show splitFields (f ++ '"' :: []) true [] = [f]
    rw [splitFields_quoted f [] [] (h _ (List.mem_singleton_self _))]
    simp [splitFields]
  | (false, f) :: g :: gs, _, h => by
    have ih := splitFields_encoded (g :: gs) (by simp)
      (fun p hp => h p (List.mem_cons_of_mem _ hp))
    have hshape : charJoin [','] (((false, f) :: g :: gs).map encodeField) =
        f ++ ',' :: charJoin [','] ((g :: gs).map encodeField) := by
      show (f ++ [',']) ++ charJoin [','] ((g :: gs).map encodeField) = _
      rw [List.append_assoc, List.singleton_append]
    rw [hshape, splitFields_clean_cons f _ [] (h _ (List.mem_cons_self _ _)), ih]
    simp
  | (true, f) :: g :: gs, _, h => by
    have ih := splitFields_encoded (g :: gs) (by simp)
      (fun p hp => h p (List.mem_cons_of_mem _ hp))
    have hshape : charJoin [','] (((true, f) :: g :: gs).map encodeField) =
        '"' :: (f ++ ('"' :: ',' :: charJoin [','] ((g :: gs).map encodeField))) := by
      show ('"' :: (f ++ ['"']) ++ [',']) ++ charJoin [','] ((g :: gs).map encodeField) = _
      simp [List.append_assoc]
    rw [hshape, splitFields, if_pos rfl]
    show splitFields (f ++ '"' :: ',' :: charJoin [','] ((g :: gs).map encodeField)) true [] =
      List.map Prod.snd ((true, f) :: g :: gs)
    rw [splitFields_quoted f _ [] (h _ (List.mem_cons_self _ _))]
    rw [splitFields, if_neg (by decide), if_pos ⟨rfl, rfl⟩, ih]
    simp

lemma natDigits_digit : ∀ n : ℕ, ∀ c ∈ natDigits n, c.isDigit = true := by
  intro n
  induction n using Nat.strong_induction_on with
  | _ n ih =>
    intro c hc
    rw [natDigits] at hc
    split at hc
    · next hlt =>
      simp only [List.mem_singleton] at hc
      subst hc
      interval_cases n <;> decide
    · next hge =>
      rcases List.mem_append.mp hc with hmem | hmem
      · exact ih (n / 10) (Nat.div_lt_self (by omega) (by omega)) c hmem
      · simp only [List.mem_singleton] at hmem
        subst hmem
        have : n % 10 < 10 := Nat.mod_lt n (by omega)
        interval_cases h : n % 10 <;> decide

lemma digit_csvSafe (c : Char) (h : c.isDigit = true) : csvSafe c := by
  refine ⟨?_, ?_, ?_⟩ <;> rintro rfl <;> exact absurd h (by decide)

lemma natToString_safe (n : ℕ) : ∀ c ∈ (natToString n).toList, csvSafe c := by
  intro c hc
  exact digit_csvSafe c (natDigits_digit n c hc)

lemma intToString_safe (i : ℤ) : ∀ c ∈ (intToString i).toList, csvSafe c := by
  intro c hc
  unfold intToString at hc
  split at hc
  · rw [toList_append] at hc
    rcases List.mem_append.mp hc with hm | hm
    · simp at hm
      subst hm
      exact ⟨by decide, by decide, by decide⟩
    · exact natToString_safe _ c hm
  · exact natToString_safe _ c hc

lemma toFixed2_safe (q : ℚ) : ∀ c ∈ (toFixed2 q).toList, csvSafe c := by
  intro c hc
  unfold toFixed2 at hc
  rw [toList_append, toList_append, toList_append, toList_append] at hc
  rcases List.mem_append.mp hc with hc | hc
  · rcases List.mem_append.mp hc with hc | hc
    · rcases List.mem_append.mp hc with hc | hc
      · rcases List.mem_append.mp hc with hc | hc
        · split at hc <;> simp at hc
          next => subst hc; exact ⟨by decide, by decide, by decide⟩
        · exact natToString_safe _ c hc
      · simp at hc
        subst hc
        exact ⟨by decide, by decide, by decide⟩
    · split at hc <;> simp at hc
      next => subst hc; exact ⟨by decide, by decide, by decide⟩
  · exact natToString_safe _ c hc

lemma csvRow_toList (st : StockWithEMA) :
    (csvRow st).toList = charJoin [','] ((rowFieldPairs st).map encodeField) := by
  unfold csvRow rowFieldPairs
  rw [joinSep_toList]
  congr 1

lemma rowFieldPairs_ok (st : StockWithEMA) (h : stockTextsClean st) :
    ∀ p ∈ rowFieldPairs st, fieldOk p := by
  obtain ⟨hsym, hexch, hdate, hname⟩ := h
  intro p hp
  unfold rowFieldPairs at hp
  simp only [List.mem_cons, List.not_mem_nil, or_false] at hp
  rcases hp with rfl | rfl | rfl | rfl | rfl | rfl | rfl | rfl | rfl | rfl | rfl | rfl | rfl
  · exact fun c hc => ⟨(hsym c hc).1, (hsym c hc).2.1⟩
  · exact fun c hc => (hname c hc).1
  · exact fun c hc => ⟨(hexch c hc).1, (hexch c hc).2.1⟩
  · exact fun c hc => ⟨(hdate c hc).1, (hdate c hc).2.1⟩
  · exact fun c hc => ⟨(toFixed2_safe _ c hc).1, (toFixed2_safe _ c hc).2.1⟩
  · exact fun c hc => ⟨(toFixed2_safe _ c hc).1, (toFixed2_safe _ c hc).2.1⟩
  · exact fun c hc => ⟨(toFixed2_safe _ c hc).1, (toFixed2_safe _ c hc).2.1⟩
  · exact fun c hc => ⟨(toFixed2_safe _ c hc).1, (toFixed2_safe _ c hc).2.1⟩
  · exact fun c hc => ⟨(intToString_safe _ c hc).1, (intToString_safe _ c hc).2.1⟩
  · exact fun c hc => ⟨(toFixed2_safe _ c hc).1, (toFixed2_safe _ c hc).2.1⟩
  · show ∀ c ∈ (if st.low < st.ema50 then "Below" else "Above").toList, c ≠ ',' ∧ c ≠ '"'
    by_cases hb : st.low < st.ema50
    · rw [if_pos hb]
      decide
    · rw [if_neg hb]
      decide
  · show ∀ c ∈ (if st.close > st.ema50 then "Above" else "Below").toList, c ≠ ',' ∧ c ≠ '"'
    by_cases hb : st.close > st.ema50
    · rw [if_pos hb]
      decide
    · rw [if_neg hb]
      decide
  · show ∀ c ∈ (if st.qualifies then "YES" else "NO").toList, c ≠ ',' ∧ c ≠ '"'
    by_cases hb : st.qualifies = true
    · rw [if_pos hb]
      decide
    · rw [if_neg hb]
      decide

lemma parse_csvRow (st : StockWithEMA) (h : stockTextsClean st) :
    (splitFields ((csvRow st).toList) false []).map String.mk = expectedFields st := by
  rw [csvRow_toList, splitFields_encoded (rowFieldPairs st) (by simp [rowFieldPairs])
    (rowFieldPairs_ok st h)]
  rfl

lemma mem_charJoin (sep : List Char) : ∀ (ls : List (List Char)) (c : Char),
    c ∈ charJoin sep ls → c ∈ sep ∨ ∃ l ∈ ls, c ∈ l
  | [], c, hc => by simp [charJoin] at hc
  | [a], c, hc => Or.inr ⟨a, List.mem_singleton_self a, hc⟩
  | a :: b :: rest, c, hc => by
    rw [show charJoin sep (a :: b :: rest) = a ++ sep ++ charJoin sep (b :: rest) from rfl]
      at hc
    rcases List.mem_append.mp hc with h1 | h2
    · rcases List.mem_append.mp h1 with ha | hs
      · exact Or.inr ⟨a, List.mem_cons_self _ _, ha⟩
      · exact Or.inl hs
    · rcases mem_charJoin sep (b :: rest) c h2 with hs | ⟨l, hl, hcl⟩
      · exact Or.inl hs
      · exact Or.inr ⟨l, List.mem_cons_of_mem _ hl, hcl⟩

lemma csvRow_no_newline (st : StockWithEMA)
    (hsym : ∀ c ∈ st.symbol.toList, c ≠ '\n')
    (hname : ∀ c ∈ st.name.toList, c ≠ '\n')
    (hexch : ∀ c ∈ st.exchange.toList, c ≠ '\n')
    (hdate : ∀ c ∈ st.date.toList, c ≠ '\n') :
    ∀ c ∈ (csvRow st).toList, c ≠ '\n' := by
  intro c hc
  rw [csvRow_toList] at hc
  rcases mem_charJoin [','] _ c hc with hs | ⟨l, hl, hcl⟩
  · simp at hs
    subst hs
    decide
  · rcases List.mem_map.mp hl with ⟨p, hp, rfl⟩
    unfold rowFieldPairs at hp
    simp only [List.mem_cons, List.not_mem_nil, or_false] at hp
    rcases hp with rfl | rfl | rfl | rfl | rfl | rfl | rfl | rfl | rfl | rfl | rfl | rfl | rfl
    · exact hsym c hcl
    · have hcl2 : c ∈ '"' :: (st.name.toList ++ ['"']) := hcl
      rcases List.mem_cons.mp hcl2 with rfl | hcl3
      · decide
      · rcases List.mem_append.mp hcl3 with hcl4 | hcl5
        · exact hname c hcl4
        · simp at hcl5
          subst hcl5
          decide
    · exact hexch c hcl
    · exact hdate c hcl
    · exact (toFixed2_safe _ c hcl).2.2
    · exact (toFixed2_safe _ c hcl).2.2
    · exact (toFixed2_safe _ c hcl).2.2
    · exact (toFixed2_safe _ c hcl).2.2
    · exact (intToString_safe _ c hcl).2.2
    · exact (toFixed2_safe _ c hcl).2.2
    · have hcl2 : c ∈ (if st.low < st.ema50 then "Below" else "Above").toList := hcl
      by_cases hb : st.low < st.ema50
      · rw [if_pos hb] at hcl2
        exact (by decide : ∀ x ∈ ("Below" : String).toList, x ≠ '\n') c hcl2
      · rw [if_neg hb] at hcl2
        exact (by decide : ∀ x ∈ ("Above" : String).toList, x ≠ '\n') c hcl2
    · have hcl2 : c ∈ (if st.close > st.ema50 then "Above" else "Below").toList := hcl
      by_cases hb : st.close > st.ema50
      · rw [if_pos hb] at hcl2
        exact (by decide : ∀ x ∈ ("Above" : String).toList, x ≠ '\n') c hcl2
      · rw [if_neg hb] at hcl2
        exact (by decide : ∀ x ∈ ("Below" : String).toList, x ≠ '\n') c hcl2
    · have hcl2 : c ∈ (if st.qualifies then "YES" else "NO").toList := hcl
      by_cases hb : st.qualifies = true
      · rw [if_pos hb] at hcl2
        exact (by decide : ∀ x ∈ ("YES" : String).toList, x ≠ '\n') c hcl2
      · rw [if_neg hb] at hcl2
        exact (by decide : ∀ x ∈ ("NO" : String).toList, x ≠ '\n') c hcl2

lemma header_no_newline : ∀ c ∈ (joinSep "," csvHeaders).toList, c ≠ '\n' := by decide

lemma splitFields_head_comma (R : List Char) :
    (splitFields ('A' :: ',' :: R) false []).map String.mk =
      "A" :: (splitFields R false []).map String.mk := by
  rw [splitFields, if_neg (by decide), if_neg (by decide)]
  rw [splitFields, if_neg (by decide), if_pos ⟨rfl, rfl⟩]
  rfl

/-- C1: the qualification predicate holds iff `low < ema50` and `close > ema50`,
both strict: a bar whose low (or close) equals the EMA does not qualify. -/
theorem qualification_iff_strict (low close ema50 : ℚ) :
    (qualifiesRule low close ema50 = true ↔ low < ema50 ∧ close > ema50) ∧
    (low = ema50 → qualifiesRule low close ema50 = false) ∧
    (close = ema50 → qualifiesRule low close ema50 = false) := by
  refine ⟨by simp [qualifiesRule], ?_, ?_⟩
  · intro h; subst h; simp [qualifiesRule]
  · intro h; subst h; simp [qualifiesRule]

/-- Witness for C1 at concrete inputs: equality on either bound fails,
strict inequalities on both succeed. -/
theorem qualification_iff_strict_witness :
    qualifiesRule 5 6 5 = false ∧ qualifiesRule 3 4 4 = false ∧
      qualifiesRule 4 6 5 = true :=
  ⟨(qualification_iff_strict 5 6 5).2.1 rfl,
   (qualification_iff_strict 3 4 4).2.2 rfl,
   (qualification_iff_strict 4 6 5).1.mpr (by norm_num)⟩

/-- C2: for a series at least `period` long (`period ≥ 1`), the EMA value at
index `period - 1` is the arithmetic mean of the first `period` prices, and
each later value follows the recurrence
`ema[i] = (price[i] - ema[i-1]) * (2 / (period + 1)) + ema[i-1]`. -/
theorem ema_seed_and_recurrence (prices : List ℚ) (period : ℕ)
    (h1 : 1 ≤ period) (h2 : period ≤ prices.length) :
    emaEntry prices period (period - 1) =
      some ((prices.take period).sum / (period : ℚ)) ∧
    ∀ i, period ≤ i → i < prices.length →
      ∃ prev cur, emaEntry prices period (i - 1) = some prev ∧
        emaEntry prices period i = some cur ∧
        cur = (prices.getD i 0 - prev) * (2 / ((period : ℚ) + 1)) + prev := by
  constructor
  · rw [emaEntry_seedIdx]
    unfold emaSeed
    rw [min_eq_left h2]
  · intro i hpi hil
    obtain ⟨prev, cur, hp, hc, he⟩ := ema_recurrence prices period i h1 hpi hil
    exact ⟨prev, cur, hp, hc, by rw [he]; rfl⟩

/-- Witness for C2 on `prices = [1, 2, 3]`, `period = 2`: seed `3/2` at index 1
and the recurrence instance at index 2. -/
theorem ema_seed_and_recurrence_witness :
    emaEntry [(1 : ℚ), 2, 3] 2 1 = some (3 / 2) ∧
    ∃ prev cur, emaEntry [(1 : ℚ), 2, 3] 2 1 = some prev ∧
      emaEntry [(1 : ℚ), 2, 3] 2 2 = some cur ∧
      cur = ([(1 : ℚ), 2, 3].getD 2 0 - prev) * (2 / ((2 : ℚ) + 1)) + prev := by
  have h := ema_seed_and_recurrence [(1 : ℚ), 2, 3] 2 (by norm_num) (by norm_num)
  refine ⟨?_, h.2 2 (le_refl 2) (by norm_num)⟩
  rw [h.1]
  norm_num

/-- C3: for a series at least `period` long (`period ≥ 1`), the result has the
same length as the input and an entry is absent exactly when its index is
below `period - 1`. -/
theorem ema_length_and_absent (prices : List ℚ) (period : ℕ)
    (h1 : 1 ≤ period) (h2 : period ≤ prices.length) :
    (calculateEMA prices period).length = prices.length ∧
    ∀ i, i < prices.length → (emaEntry prices period i = none ↔ i < period - 1) := by
  constructor
  · unfold calculateEMA
    simp [emaTail_length]
    omega
  · intro i hi
    constructor
    · intro hnone
      by_contra hge
      push_neg at hge
      rcases eq_or_lt_of_le hge with heq | hlt
      · rw [← heq, emaEntry_seedIdx] at hnone
        exact Option.some_ne_none _ hnone
      · have hip : period ≤ i := by omega
        rw [emaEntry_ge h1 hip] at hnone
        have hlen : i - period < (emaTail (emaMultiplier period) (emaSeed prices period)
            (prices.drop period)).length := by
          rw [emaTail_length]
          simp
          omega
        rw [List.getElem?_eq_getElem hlen] at hnone
        exact Option.some_ne_none _ hnone
    · exact fun hlt => emaEntry_lt hlt

/-- Witness for C3 on `prices = [1, 2, 3]`, `period = 2`. -/
theorem ema_length_and_absent_witness :
    (calculateEMA [(1 : ℚ), 2, 3] 2).length = 3 ∧
    ∀ i, i < ([(1 : ℚ), 2, 3] : List ℚ).length →
      (emaEntry [(1 : ℚ), 2, 3] 2 i = none ↔ i < 1) := by
  have h := ema_length_and_absent [(1 : ℚ), 2, 3] 2 (by norm_num) (by norm_num)
  exact ⟨h.1, h.2⟩

/-- C8: each recurrence-produced EMA value lies (inclusively) between the
previous EMA value and the current price. -/
theorem ema_between_prev_and_price (prices : List ℚ) (period i : ℕ)
    (h1 : 1 ≤ period) (h2 : period ≤ i) (hi : i < prices.length) :
    ∃ prev cur, emaEntry prices period (i - 1) = some prev ∧
      emaEntry prices period i = some cur ∧
      min prev (prices.getD i 0) ≤ cur ∧ cur ≤ max prev (prices.getD i 0) := by
  obtain ⟨prev, cur, hp, hc, he⟩ := ema_recurrence prices period i h1 h2 hi
  have hm0 : 0 ≤ emaMultiplier period := by
    unfold emaMultiplier
    positivity
  have hm1 : emaMultiplier period ≤ 1 := by
    unfold emaMultiplier
    rw [div_le_one (by positivity)]
    have : (1 : ℚ) ≤ (period : ℚ) := by exact_mod_cast h1
    linarith
  refine ⟨prev, cur, hp, hc, ?_, ?_⟩
  · rw [he]
    unfold emaStep
    rcases le_total prev (prices.getD i 0) with hle | hle
    · rw [min_eq_left hle]
      nlinarith
    · rw [min_eq_right hle]
      nlinarith
  · rw [he]
    unfold emaStep
    rcases le_total prev (prices.getD i 0) with hle | hle
    · rw [max_eq_right hle]
      nlinarith
    · rw [max_eq_left hle]
      nlinarith

/-- Witness for C8 on `prices = [1, 2, 3]`, `period = 2`, `i = 2`. -/
theorem ema_between_prev_and_price_witness :
    ∃ prev cur, emaEntry [(1 : ℚ), 2, 3] 2 1 = some prev ∧
      emaEntry [(1 : ℚ), 2, 3] 2 2 = some cur ∧
      min prev ([(1 : ℚ), 2, 3].getD 2 0) ≤ cur ∧
      cur ≤ max prev ([(1 : ℚ), 2, 3].getD 2 0) :=
  ema_between_prev_and_price [(1 : ℚ), 2, 3] 2 2 (by norm_num) (le_refl 2) (by norm_num)

/-- C10: on a series shorter than `period`, `calculateEMA` returns an array of
length `period`; for a non-empty input the sole defined entry sits at index
`period - 1` and equals the mean of all input prices; for the empty input that
entry is the quotient `0 / 0`. -/
theorem ema_short_input (prices : List ℚ) (period : ℕ)
    (hlt : prices.length < period) :
    (calculateEMA prices period).length = period ∧
    (prices ≠ [] →
      emaEntry prices period (period - 1) = some (prices.sum / (prices.length : ℚ)) ∧
      ∀ i, i < period → (emaEntry prices period i ≠ none ↔ i = period - 1)) ∧
    (prices = [] → emaEntry prices period (period - 1) = some ((0 : ℚ) / 0)) := by
  have h1 : 1 ≤ period := by omega
  have hdrop : prices.drop period = [] := by
    rw [List.drop_eq_nil_iff]
    omega
  have hseed : emaSeed prices period = prices.sum / (prices.length : ℚ) := by
    unfold emaSeed
    rw [List.take_of_length_le (by omega), min_eq_right (by omega)]
  have habsent : ∀ i, i < period → (emaEntry prices period i ≠ none ↔ i = period - 1) := by
    intro i hip
    constructor
    · intro hne
      by_contra hne2
      rcases Nat.lt_or_ge i (period - 1) with hl | hg
      · exact hne (emaEntry_lt hl)
      · have : period ≤ i := by omega
        rw [emaEntry_ge h1 this, hdrop] at hne
        simp [emaTail] at hne
    · intro heq
      rw [heq, emaEntry_seedIdx]
      exact Option.some_ne_none _
  refine ⟨?_, fun hne => ⟨?_, habsent⟩, fun hemp => ?_⟩
  · unfold calculateEMA
    rw [hdrop]
    simp [emaTail]
    omega
  · rw [emaEntry_seedIdx, hseed]
  · subst hemp
    rw [emaEntry_seedIdx, hseed]
    norm_num

/-- Witness for C10 on `prices = [1, 2]`, `period = 5` (and the empty series
with `period = 5`). -/
theorem ema_short_input_witness :
    (calculateEMA [(1 : ℚ), 2] 5).length = 5 ∧
    emaEntry [(1 : ℚ), 2] 5 4 = some (([(1 : ℚ), 2].sum) / (2 : ℚ)) ∧
    (∀ i, i < 5 → (emaEntry [(1 : ℚ), 2] 5 i ≠ none ↔ i = 4)) ∧
    emaEntry ([] : List ℚ) 5 4 = some ((0 : ℚ) / 0) := by
  have h := ema_short_input [(1 : ℚ), 2] 5 (by norm_num)
  have he := ema_short_input ([] : List ℚ) 5 (by norm_num)
  obtain ⟨hmean, habs⟩ := h.2.1 (by simp)
  refine ⟨h.1, by simpa using hmean, habs, he.2.2 rfl⟩

/-- Counterexample to C4 as stated: one analyzed, non-qualifying symbol gives a
report whose `stocks` sequence holds one non-qualifying record, while
`qualifyingStocks = 0`; so the emitted sequence is not "qualifying only" and
its length differs from `qualifyingStocks`. -/
theorem report_records_counterexample :
    (executeFetchStockData flatBarFetch constHistFetch ["A"]).qualifyingStocks = 0 ∧
    (executeFetchStockData flatBarFetch constHistFetch ["A"]).stocks.length = 1 ∧
    (executeFetchStockData flatBarFetch constHistFetch ["A"]).stocks.map
      (fun st => st.qualifies) = [false] := by
  rw [flatBar_report_eq]
  exact ⟨rfl, rfl, rfl⟩

/-- C4 (amended): the report's counts are consistent and are both computed from
the same finalized list: `qualifyingStocks ≤ totalStocks`, `qualifyingStocks`
is the number of qualifying records in the emitted `stocks` sequence, and
`totalStocks` is its full length (the sequence also keeps non-qualifying
records). -/
theorem report_counts_consistent (fetchBar : String → Option StockData)
    (fetchHist : String → List ℚ) (symbols : List String) :
    (executeFetchStockData fetchBar fetchHist symbols).qualifyingStocks ≤
      (executeFetchStockData fetchBar fetchHist symbols).totalStocks ∧
    (executeFetchStockData fetchBar fetchHist symbols).qualifyingStocks =
      ((executeFetchStockData fetchBar fetchHist symbols).stocks.filter
        (fun st => st.qualifies)).length ∧
    (executeFetchStockData fetchBar fetchHist symbols).totalStocks =
      (executeFetchStockData fetchBar fetchHist symbols).stocks.length := by
  unfold executeFetchStockData
  exact ⟨List.length_filter_le _ _, rfl, rfl⟩

/-- C5: a symbol whose bar fetch fails or whose fetched history is shorter than
50 entries is skipped: the batch result is the same as if the symbol were not
in the input at all (it contributes to neither `totalStocks` nor the records,
and the remaining symbols are still processed); the embedding is a total
function, so no exception escapes. -/
theorem skipped_symbol_contributes_nothing (fetchBar : String → Option StockData)
    (fetchHist : String → List ℚ) (s : String) (pre post : List String)
    (h : fetchBar s = none ∨ (fetchHist s).length < 50) :
    executeFetchStockData fetchBar fetchHist (pre ++ s :: post) =
      executeFetchStockData fetchBar fetchHist (pre ++ post) := by
  unfold executeFetchStockData
  rw [processSymbols_skip fetchBar fetchHist s h pre post]

/-- Witness for C5: "B" has only 30 bars of history, so a batch over
`["A", "B", "C"]` equals the batch over `["A", "C"]`. -/
theorem skipped_symbol_contributes_nothing_witness :
    executeFetchStockData straddleBarFetch mixedHistFetch ["A", "B", "C"] =
      executeFetchStockData straddleBarFetch mixedHistFetch ["A", "C"] :=
  skipped_symbol_contributes_nothing straddleBarFetch mixedHistFetch "B" ["A"] ["C"]
    (Or.inr (by decide))

/-- C9: when the bar fetcher reports each symbol under its own name (as the
Yahoo fetcher does), the qualifying records of the report list their symbols
as a subsequence of the input symbol sequence, i.e. in input order. -/
theorem qualifying_records_preserve_input_order (fetchBar : String → Option StockData)
    (fetchHist : String → List ℚ) (symbols : List String)
    (hsym : ∀ s sd, fetchBar s = some sd → sd.symbol = s) :
    List.Sublist
      ((((executeFetchStockData fetchBar fetchHist symbols).stocks.filter
          (fun st => st.qualifies)).map (fun (st : StockWithEMA) => st.symbol)))
      symbols := by
  unfold executeFetchStockData
  exact ((List.filter_sublist _).map (fun (st : StockWithEMA) => st.symbol)).trans
    (processSymbols_symbols_sublist fetchBar fetchHist hsym symbols)

/-- Witness for C9 on a concrete two-symbol batch. -/
theorem qualifying_records_preserve_input_order_witness :
    List.Sublist
      ((((executeFetchStockData straddleBarFetch constHistFetch ["A", "B"]).stocks.filter
          (fun st => st.qualifies)).map (fun (st : StockWithEMA) => st.symbol)))
      ["A", "B"] :=
  qualifying_records_preserve_input_order straddleBarFetch constHistFetch ["A", "B"]
    (by intro s sd h; cases h; rfl)

/-- C6: the serialized table always starts with the header line, and its data
rows are exactly one row per qualifying record, in order, with no row for any
non-qualifying record; with zero qualifying records the table is just the
header line (a valid result, not an error). -/
theorem csv_rows_structure (stocks : List StockWithEMA) :
    (csvRows stocks).head? = some (joinSep "," csvHeaders) ∧
    (csvRows stocks).tail = (stocks.filter (fun st => st.qualifies)).map csvRow ∧
    (csvRows stocks).length = 1 + (stocks.filter (fun st => st.qualifies)).length := by
  refine ⟨rfl, rfl, ?_⟩
  simp [csvRows]
  omega

/-- C7 (amended): serializing a report and parsing it back yields, for each
qualifying record in order, exactly its thirteen structured field values
(same symbol, labels, and 2-decimal-rounded numeric renderings), provided
symbol, exchange and date contain no separator, quote or newline, and the
name — the only quoted field — contains no quote or newline. -/
theorem csv_roundtrip_clean (stocks : List StockWithEMA)
    (h : ∀ st ∈ stocks, stockTextsClean st) :
    parseCSV (generateCSV stocks) =
      (stocks.filter (fun st => st.qualifies)).map expectedFields := by
  unfold parseCSV generateCSV
  rw [joinSep_toList]
  have hnl : ∀ l ∈ (csvRows stocks).map String.toList, ∀ x ∈ l, x ≠ '\n' := by
    intro l hl x hx
    rcases List.mem_map.mp hl with ⟨s, hs, rfl⟩
    unfold csvRows at hs
    rcases List.mem_cons.mp hs with rfl | hs2
    · exact header_no_newline x hx
    · rcases List.mem_map.mp hs2 with ⟨st, hst, rfl⟩
      have hc := h st (List.mem_of_mem_filter hst)
      exact csvRow_no_newline st
        (fun c hcc => (hc.1 c hcc).2.2)
        (fun c hcc => (hc.2.2.2 c hcc).2)
        (fun c hcc => (hc.2.1 c hcc).2.2)
        (fun c hcc => (hc.2.2.1 c hcc).2.2) x hx
  have hsplit : splitOnChar '\n' (charJoin ("\n".toList) ((csvRows stocks).map String.toList))
      = (csvRows stocks).map String.toList := by
    show splitOnChar '\n' (charJoin ['\n'] ((csvRows stocks).map String.toList)) = _
    exact splitOnChar_charJoin '\n' _ (by simp [csvRows]) hnl
  rw [hsplit]
  unfold csvRows
  simp only [List.map_cons, List.drop_succ_cons, List.drop_zero, List.map_map]
  apply List.map_congr_left
  intro st hst
  exact parse_csvRow st (h st (List.mem_of_mem_filter hst))

/-- Witness for C7 (amended) on a one-record report. -/
theorem csv_roundtrip_clean_witness :
    parseCSV (generateCSV [cleanStock]) =
      ([cleanStock].filter (fun st => st.qualifies)).map expectedFields :=
  csv_roundtrip_clean [cleanStock] (by
    intro st hst
    rw [List.mem_singleton] at hst
    subst hst
    decide)

/-- Counterexample to C7 as stated: the Symbol field is not quoted, so a
qualifying stock whose symbol is `"A,B"` parses back with symbol `"A"` — the
round-trip does not return the same qualifying symbol set. -/
theorem csv_roundtrip_counterexample :
    commaStock.qualifies = true ∧ commaStock.symbol = "A,B" ∧
    (parseCSV (generateCSV [commaStock])).map (fun r => r.headD "") = ["A"] := by
  refine ⟨rfl, rfl, ?_⟩
  have hrows : csvRows [commaStock] = [joinSep "," csvHeaders, csvRow commaStock] := rfl
  unfold parseCSV generateCSV
  rw [hrows, joinSep_toList]
  have hnl : ∀ l ∈ ([joinSep "," csvHeaders, csvRow commaStock].map String.toList),
      ∀ x ∈ l, x ≠ '\n' := by
    intro l hl x hx
    simp only [List.map_cons, List.map_nil, List.mem_cons, List.not_mem_nil, or_false] at hl
    rcases hl with rfl | rfl
    · exact header_no_newline x hx
    · exact csvRow_no_newline commaStock (by decide) (by decide) (by decide) (by decide) x hx
  have hsplit : splitOnChar '\n'
        (charJoin ("\n".toList) ([joinSep "," csvHeaders, csvRow commaStock].map String.toList))
      = [joinSep "," csvHeaders, csvRow commaStock].map String.toList := by
    show splitOnChar '\n'
        (charJoin ['\n'] ([joinSep "," csvHeaders, csvRow commaStock].map String.toList)) = _
    exact splitOnChar_charJoin '\n' _ (by simp) hnl
  rw [hsplit]
  simp only [List.map_cons, List.map_nil, List.drop_succ_cons, List.drop_zero]
  have hshape : ∃ R, (csvRow commaStock).toList = 'A' :: ',' :: R := by
    unfold csvRow
    rw [joinSep, toList_append, toList_append]
    exact ⟨_, rfl⟩
  obtain ⟨R, hR⟩ := hshape
  rw [hR, splitFields_head_comma]
  rfl

end StockScreener
